import Mathlib

/-!
Verification of the jsonous decoder combinator library against its
specification.  The TypeScript runtime is shallowly embedded: JS values
become the `Value` tree, the external `resulty` Result type becomes
`Result`, the external `maybeasy` Maybe type becomes `Maybe`, and each
decoder is a function `Value → Result String A` exactly as the source's
`DecoderFn<A>`.  The JSON builtins (`JSON.stringify`, `JSON.parse`) are
modelled by an executable renderer and parser over `Value`.
-/

/-- A JavaScript runtime value, as the decoders see it.  JS numbers are
modelled as integers (no claim exercises non-integer arithmetic); objects
are ordered association lists, mirroring JS insertion order. -/
inductive Value : Type
  | null
  | undefined
  | bool (b : Bool)
  | num (n : Int)
  | str (s : String)
  | arr (elements : List Value)
  | obj (fields : List (String × Value))

/-- The external resulty `Result` type: a tagged union of `err` and `ok`. -/
inductive Result (E A : Type) : Type
  | err (e : E)
  | ok (a : A)

/-- The external maybeasy `Maybe` type: `just` or `nothing`. -/
inductive Maybe (A : Type) : Type
  | just (a : A)
  | nothing

/-- resulty `Result.map`: apply `f` on the `ok` side, pass errors through. -/
def Result.map {E A B : Type} (f : A → B) : Result E A → Result E B
  | .err e => .err e
  | .ok a => .ok (f a)

/-- resulty `Result.andThen`: monadic bind on the `ok` side. -/
def Result.andThen {E A B : Type} (f : A → Result E B) : Result E A → Result E B
  | .err e => .err e
  | .ok a => f a

/-- resulty `Result.mapError`: apply `f` on the `err` side. -/
def Result.mapError {E F A : Type} (f : E → F) : Result E A → Result F A
  | .err e => .err (f e)
  | .ok a => .ok a

/-- resulty `Result.orElse`: recover from an error with `f`. -/
def Result.orElse {E A : Type} (f : E → Result E A) : Result E A → Result E A
  | .err e => f e
  | .ok a => .ok a

/-- resulty `Result.cata`: fold both sides. -/
def Result.cata {E A B : Type} (fe : E → B) (fo : A → B) : Result E A → B
  | .err e => fe e
  | .ok a => fo a

/-- resulty `Result.isOk`. -/
def Result.isOk {E A : Type} : Result E A → Bool
  | .err _ => false
  | .ok _ => true

/-- resulty `Result.isErr`. -/
def Result.isErr {E A : Type} : Result E A → Bool
  | .err _ => true
  | .ok _ => false

/-- The error message of a failed result, and `""` for a success; this is
the `r.cata(\x7b Err: e => e, Ok: () => \x27\x27 \x7d)` projection `oneOf`
applies to each branch result. -/
def Result.errMsg {A : Type} : Result String A → String
  | .err e => e
  | .ok _ => ""

/-- JS loose equality against null (`value == null`): true exactly for
`null` and `undefined`. -/
def Value.isNullish : Value → Bool
  | .null => true
  | .undefined => true
  | _ => false

/-- The left brace character, kept out of literals. -/
def lbrace : Char := Char.ofNat 123

/-- The right brace character, kept out of literals. -/
def rbrace : Char := Char.ofNat 125

/-- Hex digit character for a value below 16 (lowercase, as V8 prints). -/
def hexDigitChar (n : Nat) : Char :=
  if n < 10 then Char.ofNat (48 + n) else Char.ofNat (87 + n)

/-- JSON string escaping of one character, per `JSON.stringify`: quote and
backslash get a backslash escape, the common control characters get their
short escapes, remaining control characters get a `\u00xx` escape, and
everything else stands for itself. -/
def escapeChar (c : Char) : List Char :=
  if c = '"' then ['\\', '"']
  else if c = '\\' then ['\\', '\\']
  else if c = Char.ofNat 8 then ['\\', 'b']
  else if c = Char.ofNat 9 then ['\\', 't']
  else if c = Char.ofNat 10 then ['\\', 'n']
  else if c = Char.ofNat 12 then ['\\', 'f']
  else if c = Char.ofNat 13 then ['\\', 'r']
  else if c.toNat < 32 then
    ['\\', 'u', '0', '0', hexDigitChar (c.toNat / 16), hexDigitChar (c.toNat % 16)]
  else [c]

/-- JSON-escape every character of a list in order. -/
def escapeAll : List Char → List Char
  | [] => []
  | c :: cs => escapeChar c ++ escapeAll cs

/-- A JSON string literal: quote, escaped body, quote. -/
def quoteChars (s : String) : List Char :=
  '"' :: (escapeAll s.data ++ ['"'])

/-- The decimal digit character of `d < 10`. -/
def digitChar (d : Nat) : Char := Char.ofNat (48 + d)

/-- Decimal digit characters of a natural number, most significant
first, with structural fuel (so the kernel can evaluate it); `natDigs`
supplies ample fuel. -/
def natDigsGo : Nat → Nat → List Char
  | 0, _ => []
  | fuel + 1, n =>
    if n < 10 then [digitChar n]
    else natDigsGo fuel (n / 10) ++ [digitChar (n % 10)]

/-- Decimal digit characters of a natural number, most significant first. -/
def natDigs (n : Nat) : List Char := natDigsGo (n + 1) n

/-- Decimal rendering of an integer: optional minus sign, then digits. -/
def intChars (i : Int) : List Char :=
  (if i < 0 then ['-'] else []) ++ natDigs i.natAbs

/-- Comma-join a list of rendered pieces. -/
def joinComma : List (List Char) → List Char
  | [] => []
  | [p] => p
  | p :: ps => p ++ ',' :: joinComma ps

mutual
/-- Model of `JSON.stringify` on a `Value` tree (no replacer): `none` is
the builtin returning the value `undefined`, which happens exactly on the
`undefined` input.  Inside arrays `undefined` renders as `null`; inside
objects an `undefined` field is dropped; there is no sharing in a tree, so
the cyclical-reference replacer never fires here (the heap model below
covers it). -/
def renderL : Value → Option (List Char)
  | .null => some ['n', 'u', 'l', 'l']
  | .undefined => none
  | .bool true => some ['t', 'r', 'u', 'e']
  | .bool false => some ['f', 'a', 'l', 's', 'e']
  | .num n => some (intChars n)
  | .str s => some (quoteChars s)
  | .arr es => some ('[' :: (joinComma (renderElems es) ++ [']']))
  | .obj fs => some (lbrace :: (joinComma (renderFields fs) ++ [rbrace]))

/-- Rendered pieces of array elements, in order (`undefined` as `null`). -/
def renderElems : List Value → List (List Char)
  | [] => []
  | e :: es => ((renderL e).getD ['n', 'u', 'l', 'l']) :: renderElems es

/-- Rendered `"key":value` pieces of object fields, dropping fields whose
value does not stringify. -/
def renderFields : List (String × Value) → List (List Char)
  | [] => []
  | (k, v) :: fs =>
    match renderL v with
    | none => renderFields fs
    | some sv => (quoteChars k ++ ':' :: sv) :: renderFields fs
end

/-- The repository's `safeStringify` on tree values, as interpolated into
error message templates: `JSON.stringify(value, cyclicalReferenceReplacer())`
followed by JS template conversion, which prints the undefined result of
stringifying `undefined` as the text `undefined`.  On trees no reference
repeats, so the replacer never substitutes its sentinel. -/
def safeStringify (value : Value) : String :=
  match renderL value with
  | some cs => String.mk cs
  | none => "undefined"

/-- Is `c` a decimal digit character? -/
def isDigitCh (c : Char) : Bool := 48 ≤ c.toNat && c.toNat ≤ 57

/-- Split a leading run of digit characters from the rest of the input. -/
def grabDigits : List Char → (List Char × List Char)
  | [] => ([], [])
  | c :: cs =>
    if isDigitCh c then
      let (ds, r) := grabDigits cs
      (c :: ds, r)
    else ([], c :: cs)

/-- The natural number denoted by a run of digit characters. -/
def digitsVal (ds : List Char) : Nat :=
  ds.foldl (fun a c => a * 10 + (c.toNat - 48)) 0

/-- The hex value of a hex digit character, if it is one. -/
def readHex (c : Char) : Option Nat :=
  if 48 ≤ c.toNat && c.toNat ≤ 57 then some (c.toNat - 48)
  else if 97 ≤ c.toNat && c.toNat ≤ 102 then some (c.toNat - 87)
  else if 65 ≤ c.toNat && c.toNat ≤ 70 then some (c.toNat - 55)
  else none

/-- The character a short JSON escape code denotes, if any. -/
def unescapeCode (c : Char) : Option Char :=
  if c = '"' then some '"'
  else if c = '\\' then some '\\'
  else if c = '/' then some '/'
  else if c = 'b' then some (Char.ofNat 8)
  else if c = 't' then some (Char.ofNat 9)
  else if c = 'n' then some (Char.ofNat 10)
  else if c = 'f' then some (Char.ofNat 12)
  else if c = 'r' then some (Char.ofNat 13)
  else none

/-- Parse the body of a JSON string literal, after its opening quote,
accumulating decoded characters in reverse. -/
def parseStrBody (acc : List Char) : List Char → Result String (String × List Char)
  | '"' :: rest => .ok (String.mk acc.reverse, rest)
  | '\\' :: 'u' :: h1 :: h2 :: h3 :: h4 :: rest =>
    match readHex h1, readHex h2, readHex h3, readHex h4 with
    | some a, some b, some c, some d =>
      parseStrBody (Char.ofNat (((a * 16 + b) * 16 + c) * 16 + d) :: acc) rest
    | _, _, _, _ => .err "Bad Unicode escape in JSON"
  | '\\' :: c :: rest =>
    match unescapeCode c with
    | some u => parseStrBody (u :: acc) rest
    | none => .err "Bad escaped character in JSON"
  | c :: rest => parseStrBody (c :: acc) rest
  | [] => .err "Unterminated string in JSON"

/-- Consume an expected literal character sequence. -/
def dropLit : List Char → List Char → Option (List Char)
  | [], r => some r
  | k :: ks, c :: r => if c = k then dropLit ks r else none
  | _ :: _, [] => none

/-- Parse a JSON integer (optional minus sign, then digits). -/
def parseIntVal (cs : List Char) : Result String (Value × List Char) :=
  match cs with
  | [] => .err "Unexpected end of JSON input"
  | c :: r =>
    if c = '-' then
      let (ds, r2) := grabDigits r
      if ds.isEmpty then .err "No number after minus sign in JSON"
      else .ok (.num (-(digitsVal ds : Int)), r2)
    else
      let (ds, r2) := grabDigits (c :: r)
      if ds.isEmpty then .err "Unexpected token in JSON"
      else .ok (.num (digitsVal ds : Int), r2)

mutual
/-- Model of `JSON.parse` on the integer fragment of JSON, without
whitespace: exactly the grammar the `renderL` model of `JSON.stringify`
emits.  Fuel (structural) bounds the recursion depth; `jsonParse`
supplies enough for any input.  Dispatch is on the head character. -/
def parseVal : Nat → List Char → Result String (Value × List Char)
  | 0, _ => .err "Too much recursion in JSON"
  | _ + 1, [] => .err "Unexpected end of JSON input"
  | fuel + 1, c :: r =>
    if c = 'n' then
      match dropLit ['u', 'l', 'l'] r with
      | some r1 => .ok (.null, r1)
      | none => .err "Unexpected token in JSON"
    else if c = 't' then
      match dropLit ['r', 'u', 'e'] r with
      | some r1 => .ok (.bool true, r1)
      | none => .err "Unexpected token in JSON"
    else if c = 'f' then
      match dropLit ['a', 'l', 's', 'e'] r with
      | some r1 => .ok (.bool false, r1)
      | none => .err "Unexpected token in JSON"
    else if c = '"' then
      match parseStrBody [] r with
      | .err e => .err e
      | .ok (s, r1) => .ok (.str s, r1)
    else if c = '[' then
      match r with
      | [] => .err "Unexpected end of JSON input"
      | c2 :: r2 =>
        if c2 = ']' then .ok (.arr [], r2)
        else
          match parseItems fuel (c2 :: r2) with
          | .err e => .err e
          | .ok (es, r3) => .ok (.arr es, r3)
    else if c = lbrace then
      match r with
      | [] => .err "Unexpected end of JSON input"
      | c2 :: r2 =>
        if c2 = rbrace then .ok (.obj [], r2)
        else
          match parseMembers fuel (c2 :: r2) with
          | .err e => .err e
          | .ok (ms, r3) => .ok (.obj ms, r3)
    else if c = '-' || isDigitCh c then parseIntVal (c :: r)
    else .err "Unexpected token in JSON"

/-- One or more comma-separated array items, consuming the closing
bracket. -/
def parseItems : Nat → List Char → Result String (List Value × List Char)
  | 0, _ => .err "Too much recursion in JSON"
  | fuel + 1, cs =>
    match parseVal fuel cs with
    | .err e => .err e
    | .ok (v, r) =>
      match r with
      | [] => .err "Unexpected end of JSON input"
      | c :: r1 =>
        if c = ',' then
          match parseItems fuel r1 with
          | .err e => .err e
          | .ok (vs, r2) => .ok (v :: vs, r2)
        else if c = ']' then .ok ([v], r1)
        else .err "Expected comma or closing bracket in JSON"

/-- One or more comma-separated object members, consuming the closing
brace. -/
def parseMembers : Nat → List Char → Result String (List (String × Value) × List Char)
  | 0, _ => .err "Too much recursion in JSON"
  | fuel + 1, cs =>
    match cs with
    | '"' :: r =>
      match parseStrBody [] r with
      | .err e => .err e
      | .ok (k, r1) =>
        match r1 with
        | ':' :: r2 =>
          match parseVal fuel r2 with
          | .err e => .err e
          | .ok (v, r3) =>
            match r3 with
            | [] => .err "Unexpected end of JSON input"
            | c :: r4 =>
              if c = ',' then
                match parseMembers fuel r4 with
                | .err e => .err e
                | .ok (ms, r5) => .ok ((k, v) :: ms, r5)
              else if c = rbrace then .ok ([(k, v)], r4)
              else .err "Expected comma or closing brace in JSON"
        | _ => .err "Expected colon in JSON"
    | _ => .err "Expected string key in JSON"
end

/-- Model of `JSON.parse` on a whole document: an error result stands for
the `SyntaxError` the builtin throws, carrying its message. -/
def jsonParse (s : String) : Result String Value :=
  match parseVal (s.length + 1) s.data with
  | .err e => .err e
  | .ok (v, r) => if r.isEmpty then .ok v else .err "Unexpected trailing characters in JSON"

/-- `Decoder<A>` wraps a `DecoderFn<A> = (thing: any) => Result<string, A>`;
the class holds nothing else, so the embedding is the function itself. -/
def Decoder (A : Type) : Type := Value → Result String A

/-- `Decoder.decodeAny`: run the wrapped function on a value. -/
def Decoder.decodeAny {A : Type} (d : Decoder A) (value : Value) : Result String A :=
  d value

/-- `Decoder.map` from `src/Decoder.ts`. -/
def Decoder.map {A B : Type} (d : Decoder A) (f : A → B) : Decoder B :=
  fun value => (d value).map f

/-- `Decoder.andThen` from `src/Decoder.ts`: bind the first result, then
run the produced decoder against the original input value. -/
def Decoder.andThen {A B : Type} (d : Decoder A) (f : A → Decoder B) : Decoder B :=
  fun value => (d value).andThen (fun v => (f v).decodeAny value)

/-- `Decoder.mapError` from `src/Decoder.ts`. -/
def Decoder.mapError {A : Type} (d : Decoder A) (f : String → String) : Decoder A :=
  fun value => (d value).mapError f

/-- `Decoder.orElse` from `src/Decoder.ts`. -/
def Decoder.orElse {A : Type} (d : Decoder A) (f : String → Decoder A) : Decoder A :=
  fun value => (d value).orElse (fun e => (f e).decodeAny value)

/-- The own enumerable properties of `Object(a)`, as JS object spread
collects them: an object contributes its fields, an array its indexed
elements, a boxed string its indexed characters (`length` is own on
arrays and strings but not enumerable); boxed numbers, booleans and
`Object(null)`/`Object(undefined)` contribute nothing. -/
def ownEnumerableProps : Value → List (String × Value)
  | .obj fields => fields
  | .arr xs => xs.enum.map (fun p => (toString p.1, p.2))
  | .str s => s.data.enum.map (fun p => (toString p.1, Value.str (String.mk [p.2])))
  | _ => []

/-- JS object-literal update `\x7b...o, k: b\x7d`: an existing key keeps
its position and gets the new value, a new key is appended. -/
def setKey : List (String × Value) → String → Value → List (String × Value)
  | [], k, b => [(k, b)]
  | (k0, v0) :: rest, k, b =>
    if k0 = k then (k0, b) :: rest else (k0, v0) :: setKey rest k b

/-- First value under a key in an association list, mirroring JS object
property lookup (keys of a JS object are unique). -/
def getKey : List (String × Value) → String → Option Value
  | [], _ => none
  | (k, v) :: rest, name => if k = name then some v else getKey rest name

/-- `Decoder.assign` from `src/Decoder.ts`, at the runtime (untyped) view
where the growing scope is a JS value: `this.andThen(a => ...)` with
`other` either a decoder or a function of the scope, merging the new key
into a spread copy `\x7b...Object(a), [k]: b\x7d` of the prior scope. -/
def Decoder.assign (d : Decoder Value) (k : String)
    (other : Decoder Value ⊕ (Value → Decoder Value)) : Decoder Value :=
  d.andThen fun a =>
    (match other with
     | .inl dec => dec
     | .inr f => f a).map fun b => Value.obj (setKey (ownEnumerableProps a) k b)

/-- `Decoder.decodeJson` from `src/Decoder.ts`: `JSON.parse` inside a try
block, then `decodeAny`; the parser's `SyntaxError` is caught and its
message returned as an `err` (it is an `Error` instance, so the
`e.message` branch of the catch applies). -/
def Decoder.decodeJson {A : Type} (d : Decoder A) (json : String) : Result String A :=
  match jsonParse json with
  | .ok value => d.decodeAny value
  | .err e => .err e

/-- `succeed` from `src/base.ts`. -/
def succeed {A : Type} (value : A) : Decoder A := fun _ => .ok value

/-- `fail` from `src/base.ts`. -/
def fail {A : Type} (message : String) : Decoder A := fun _ => .err message

/-- Whether a value is a JS string primitive (`typeof value === 'string'`). -/
def Value.isStr : Value → Bool
  | .str _ => true
  | _ => false

/-- `string` from `src/base.ts`, extracting the runtime string payload. -/
def string : Decoder String := fun value =>
  match value with
  | .str s => .ok s
  | _ => .err ("I expected to find a string but instead I found " ++ safeStringify value)

/-- `number` from `src/base.ts`, extracting the runtime number payload. -/
def number : Decoder Int := fun value =>
  match value with
  | .num n => .ok n
  | _ => .err ("I expected to find a number but instead I found " ++ safeStringify value)

/-- `boolean` from `src/base.ts`. -/
def boolean : Decoder Bool := fun value =>
  match value with
  | .bool b => .ok b
  | _ => .err ("I expected to find a boolean but instead found " ++ safeStringify value)

/-- Does `value.hasOwnProperty(name)` hold?  Objects own their fields;
arrays own their index strings and `length`; boxed strings likewise; any
other primitive owns nothing. -/
def hasOwnProperty : Value → String → Bool
  | .obj fields, name => fields.any fun kv => kv.1 = name
  | .arr xs, name =>
    name = "length" ||
      (match name.toNat? with
       | some i => decide (i < xs.length) && toString i = name
       | none => false)
  | .str s, name =>
    name = "length" ||
      (match name.toNat? with
       | some i => decide (i < s.length) && toString i = name
       | none => false)
  | _, _ => false

/-- JS property read `value[name]` on a non-nullish value: `undefined`
when absent (prototype-chain methods are out of the model). -/
def getProp : Value → String → Value
  | .obj fields, name => (getKey fields name).getD .undefined
  | .arr xs, name =>
    if name = "length" then .num xs.length
    else
      (match name.toNat? with
       | some i => (xs.get? i).getD .undefined
       | none => .undefined)
  | .str s, name =>
    if name = "length" then .num s.length
    else
      (match name.toNat? with
       | some i => (s.data.get? i).elim .undefined (fun c => .str (String.mk [c]))
       | none => .undefined)
  | _, _ => .undefined

/-- The `field` miss message from `src/containers.ts`. -/
def fieldErrMsg (name : String) (value : Value) : String :=
  "I expected to find an object with key \x27" ++ name ++
    "\x27 but instead I found " ++ safeStringify value

/-- `field` from `src/containers.ts`: nullish input or a missing own
property is the miss message; otherwise the inner decoder runs on the
property value and failures get the field-name suffix. -/
def field {A : Type} (name : String) (decoder : Decoder A) : Decoder A := fun value =>
  if value.isNullish then .err (fieldErrMsg name value)
  else if !(hasOwnProperty value name) then .err (fieldErrMsg name value)
  else
    (decoder.decodeAny (getProp value name)).mapError
      fun e => e ++ ":\noccurred in a field named \x27" ++ name ++ "\x27"

/-- The loop body of `array` from `src/containers.ts`, index by index:
each step decodes the element, appends it to the accumulated results, and
tags a failure with the index; the `if (result.isErr()) break` makes the
loop stop at the first failure. -/
def arrayLoop {A : Type} (decoder : Decoder A) :
    List Value → Nat → Result String (List A) → Result String (List A)
  | [], _, result => result
  | x :: rest, idx, result =>
    let next :=
      ((decoder.decodeAny x).andThen fun v => result.map fun vs => vs ++ [v]).mapError
        fun e => e ++ ":\nerror found in an array at [" ++ toString idx ++ "]"
    if next.isErr then next else arrayLoop decoder rest (idx + 1) next

/-- `array` from `src/containers.ts`. -/
def array {A : Type} (decoder : Decoder A) : Decoder (List A) := fun value =>
  match value with
  | .arr xs => arrayLoop decoder xs 0 (.ok [])
  | _ => .err ("I expected an array but instead I found " ++ safeStringify value)

/-- `maybe` from `src/presence.ts`: fold any failure to `nothing`. -/
def maybe {A : Type} (decoder : Decoder A) : Decoder (Maybe A) := fun value =>
  (decoder.decodeAny value).cata (fun _ => .ok .nothing) (fun v => .ok (.just v))

/-- `nullable` from `src/presence.ts`: nullish input succeeds as
`nothing` without running the decoder; otherwise wrap a success in
`just` and let a failure through unchanged. -/
def nullable {A : Type} (decoder : Decoder A) : Decoder (Maybe A) := fun value =>
  if value.isNullish then .ok .nothing
  else (decoder.decodeAny value).map .just

/-- `oneOf` from `src/structures.ts`: empty list fails outright;
otherwise every decoder is run on the value up front, the first `ok` in
list order wins, and if none exists all the error messages are joined. -/
def oneOf {A : Type} (decoders : List (Decoder A)) : Decoder A := fun value =>
  if decoders.length = 0 then .err "No decoders specified."
  else
    let results := decoders.map fun d => d.decodeAny value
    let errors := (results.filter fun r => r.isErr).map fun r => r.cata (fun e => e) (fun _ => "")
    if results.any fun r => r.isOk then
      match results.find? (fun r => r.isOk) with
      | some r => r
      | none => .err ""
    else .err ("I found the following problems:\n" ++ String.intercalate "\n" errors)

/-- Property lookup `mapping[discriminatorValue]` on the mapping object;
`none` is the `undefined` that fails the source's truthiness test. -/
def lookupDecoder {A : Type} : List (String × Decoder A) → String → Option (Decoder A)
  | [], _ => none
  | (k, d) :: rest, key => if k = key then some d else lookupDecoder rest key

/-- `discriminatedUnion` from `src/structures.ts`: decode the
discriminator field as a string, dispatch on it into the mapping, and run
the selected variant decoder against the full original input. -/
def discriminatedUnion {A : Type} (discriminatorField : String)
    (mapping : List (String × Decoder A)) : Decoder A := fun value =>
  match (field discriminatorField string).decodeAny value with
  | .err _ =>
    .err ("Missing or invalid discriminator field \x27" ++ discriminatorField ++
      "\x27 in " ++ safeStringify value)
  | .ok discriminatorValue =>
    match lookupDecoder mapping discriminatorValue with
    | none =>
      .err ("Unexpected discriminator value \x27" ++ discriminatorValue ++
        "\x27 for field \x27" ++ discriminatorField ++ "\x27. Expected one of: " ++
        String.intercalate ", " (mapping.map Prod.fst) ++ ". Found in: " ++
        safeStringify value)
    | some selectedDecoder =>
      (selectedDecoder.decodeAny value).mapError
        fun e => "Error decoding variant with " ++ discriminatorField ++ "=\x27" ++
          discriminatorValue ++ "\x27: " ++ e

/-- Strict equality against `undefined` (`val === undefined`). -/
def Value.isUndefined : Value → Bool
  | .undefined => true
  | _ => false

/-- One segment of an `at` path: `Array<number | string>` in the source. -/
inductive PathElem : Type
  | num (n : Int)
  | str (s : String)

/-- The property key a path segment denotes: JS converts a number used in
bracket access to its decimal string. -/
def PathElem.key : PathElem → String
  | .num n => toString n
  | .str s => s

/-- A path prefix as a JS array value, for the `at` error message's
`safeStringify(path.slice(0, idx + 1))`. -/
def pathValue (path : List PathElem) : Value :=
  .arr (path.map fun p => match p with
    | .num n => .num n
    | .str s => .str s)

/-- The observable outcome of running a JS function: a returned result,
or a thrown exception carrying its message. -/
inductive JsOutcome (A : Type) : Type
  | returns (r : Result String A)
  | throws (msg : String)

/-- The `at` miss message from `src/containers.ts`. -/
def atMissMsg (consumed : List PathElem) (root : Value) : String :=
  "I found an error in the \x27at\x27 path. I could not find path \x27" ++
    safeStringify (pathValue consumed) ++ "\x27 in " ++ safeStringify root

/-- The walk of `at` from `src/containers.ts`: `val = val[path[idx]]`
followed by the `val === undefined` check.  The bracket read on a `null`
or `undefined` intermediate value is a JS `TypeError` (modelled with the
V8 message), because the loop only guards against `undefined` after the
read and against nullish values at the root. -/
def atGo {A : Type} (decoder : Decoder A) (root : Value) :
    List PathElem → List PathElem → Value → JsOutcome A
  | _, [], val => .returns (decoder.decodeAny val)
  | consumed, k :: rest, val =>
    match val with
    | .null =>
      .throws ("TypeError: Cannot read properties of null (reading \x27" ++
        k.key ++ "\x27)")
    | .undefined =>
      .throws ("TypeError: Cannot read properties of undefined (reading \x27" ++
        k.key ++ "\x27)")
    | _ =>
      let next := getProp val k.key
      if next.isUndefined then .returns (.err (atMissMsg (consumed ++ [k]) root))
      else atGo decoder root (consumed ++ [k]) rest next

/-- `at` from `src/containers.ts`, with the outcome kept observable so a
thrown `TypeError` is distinct from a returned `Err`. -/
def atRun {A : Type} (path : List PathElem) (decoder : Decoder A) (value : Value) :
    JsOutcome A :=
  if value.isNullish then
    .returns (.err "I found an error. Could not apply \x27at\x27 path to an undefined or null value.")
  else atGo decoder value [] path value

/-- A JS value for the heap model of `safeStringify`: scalars inline,
objects and arrays by reference into a store, so that one object can be
reachable along two paths (which a tree cannot express). -/
inductive HVal : Type
  | null
  | bool (b : Bool)
  | num (n : Int)
  | str (s : String)
  | ref (r : Nat)

/-- A heap cell: an array or an object of references/scalars. -/
inductive HObj : Type
  | arrO (xs : List HVal)
  | objO (fs : List (String × HVal))

/-- Find a heap cell by reference. -/
def heapFind : List (Nat × HObj) → Nat → Option HObj
  | [], _ => none
  | (r0, o) :: rest, r => if r0 = r then some o else heapFind rest r

/-- `JSON.stringify(value, cyclicalReferenceReplacer())` over the heap
model: each property value first passes through the replacer, whose
`WeakSet` of already-visited objects is the `seen` list of references,
threaded through the whole call in document order; a reference already in
the set is replaced by the sentinel string before serialization.  `none`
models a value that stringifies to `undefined`; fuel (structural, so the
kernel can evaluate) only bounds recursion through the heap and is ample
at every use below. -/
def serP (heap : List (Nat × HObj)) :
    Nat → List Nat → HVal → (Option String × List Nat)
  | _, seen, .null => (some "null", seen)
  | _, seen, .bool b => (some (if b then "true" else "false"), seen)
  | _, seen, .num n => (some (String.mk (intChars n)), seen)
  | _, seen, .str s => (some (String.mk (quoteChars s)), seen)
  | fuel, seen, .ref r =>
    if seen.contains r then
      (some (String.mk (quoteChars "[Cyclical Reference]")), seen)
    else
      match fuel with
      | 0 => (none, seen)
      | fuel + 1 =>
        match heapFind heap r with
        | none => (some "null", r :: seen)
        | some (.objO fs) =>
          let step := fs.foldl
            (fun acc kv =>
              match serP heap fuel acc.2 kv.2 with
              | (none, seen1) => (acc.1, seen1)
              | (some sv, seen1) =>
                (acc.1 ++ [String.mk (quoteChars kv.1) ++ ":" ++ sv], seen1))
            (([] : List String), r :: seen)
          (some (String.mk (lbrace :: ((String.intercalate "," step.1).data ++ [rbrace]))),
            step.2)
        | some (.arrO xs) =>
          let step := xs.foldl
            (fun acc x =>
              match serP heap fuel acc.2 x with
              | (none, seen1) => (acc.1 ++ ["null"], seen1)
              | (some sv, seen1) => (acc.1 ++ [sv], seen1))
            (([] : List String), r :: seen)
          (some ("[" ++ String.intercalate "," step.1 ++ "]"), step.2)

/-- The repository's `safeStringify` over the heap model, with fuel one
more than the heap size (enough for any acyclic heap; a true cycle would
be cut by the sentinel before fuel runs out anyway). -/
def safeStringifyH (heap : List (Nat × HObj)) (v : HVal) : Option String :=
  (serP heap (heap.length + 1) [] v).1

mutual
/-- A value made only of JSON-representable parts: no `undefined`
anywhere (trees cannot be cyclic, so no-cycles is automatic). -/
def Representable : Value → Bool
  | .null => true
  | .undefined => false
  | .bool _ => true
  | .num _ => true
  | .str _ => true
  | .arr es => repElems es
  | .obj fs => repFields fs

/-- All elements representable. -/
def repElems : List Value → Bool
  | [] => true
  | e :: es => Representable e && repElems es

/-- All field values representable. -/
def repFields : List (String × Value) → Bool
  | [] => true
  | kv :: fs => Representable kv.2 && repFields fs
end

/-- Input that cannot extend a digit run: empty, or headed by a
non-digit.  Every delimiter the renderer places after a number (`,`,
`]`, closing brace, end of input) qualifies. -/
def headNotDigit : List Char → Bool
  | [] => true
  | c :: _ => !isDigitCh c

/-- Claim C3: `andThen` short-circuits a failure of the first decoder
and otherwise runs the produced decoder against the original input value
(not against the decoded value). -/
theorem andThen_spec {A B : Type} (d : Decoder A) (f : A → Decoder B) (v : Value) :
    (∀ e, d.decodeAny v = .err e → (d.andThen f).decodeAny v = .err e) ∧
    (∀ a, d.decodeAny v = .ok a → (d.andThen f).decodeAny v = (f a).decodeAny v) := by
  constructor
  · intro e h
    simp only [Decoder.decodeAny, Decoder.andThen] at h ⊢
    rw [h]
    rfl
  · intro a h
    simp only [Decoder.decodeAny, Decoder.andThen] at h ⊢
    rw [h]
    rfl

/-- Witness for C3: the spec's own example, built by applying
`andThen_spec` at `\x7ba: 2, b: 3\x7d`; the chained decoder adds the two
fields, seeing the original object at every step. -/
theorem andThen_spec_witness :
    ((field "a" number).andThen fun a =>
        (field "b" number).andThen fun b => succeed (a + b)).decodeAny
      (.obj [("a", .num 2), ("b", .num 3)]) = .ok 5 :=
  ((andThen_spec (field "a" number)
      (fun a => (field "b" number).andThen fun b => succeed (a + b))
      (.obj [("a", .num 2), ("b", .num 3)])).2 2 rfl).trans rfl

/-- Claim C8: `maybe` always succeeds, folding a success to `just` and
any failure whatsoever to `nothing`. -/
theorem maybe_spec {A : Type} (d : Decoder A) (v : Value) :
    (maybe d).decodeAny v =
      .ok (match d.decodeAny v with
           | .ok a => Maybe.just a
           | .err _ => Maybe.nothing) := by
  have step : ∀ r : Result String A,
      Result.cata (fun _ : String => (Result.ok Maybe.nothing : Result String (Maybe A)))
        (fun a => Result.ok (Maybe.just a)) r =
        Result.ok (match r with
                   | .ok a => Maybe.just a
                   | .err _ => Maybe.nothing) := by
    intro r
    cases r <;> rfl
  exact step (d v)

/-- Claim C7: `nullable` succeeds with `nothing` on exactly `null` and
`undefined` without consulting the decoder (the first two equations hold
for an arbitrary decoder), and on any other input wraps a success in
`just` while letting the decoder's error through unchanged. -/
theorem nullable_spec {A : Type} (d : Decoder A) :
    ((nullable d).decodeAny .null = .ok .nothing) ∧
    ((nullable d).decodeAny .undefined = .ok .nothing) ∧
    (∀ v : Value, v.isNullish = false →
      (∀ a, d.decodeAny v = .ok a → (nullable d).decodeAny v = .ok (.just a)) ∧
      (∀ e, d.decodeAny v = .err e → (nullable d).decodeAny v = .err e)) := by
  refine ⟨rfl, rfl, fun v hv => ⟨fun a h => ?_, fun e h => ?_⟩⟩
  · show (if v.isNullish then _ else (d v).map _) = _
    rw [hv]
    simp only [Decoder.decodeAny] at h
    simp [h, Result.map]
  · show (if v.isNullish then _ else (d v).map _) = _
    rw [hv]
    simp only [Decoder.decodeAny] at h
    simp [h, Result.map]

/-- Witness for C7: `nullable(string)` applied by `nullable_spec` says
`Ok(Nothing)` at `null` but a real `Err` at `42`. -/
theorem nullable_spec_witness :
    (nullable string).decodeAny .null = .ok .nothing ∧
    (nullable string).decodeAny (.num 42) =
      .err "I expected to find a string but instead I found 42" :=
  ⟨(nullable_spec string).1,
   ((nullable_spec string).2.2 (.num 42) rfl).2 _ rfl⟩

/-- Updating a key then reading it back gives the new value. -/
theorem getKey_setKey_self (flds : List (String × Value)) (k : String) (b : Value) :
    getKey (setKey flds k b) k = some b := by
  induction flds with
  | nil => simp [setKey, getKey]
  | cons kv rest ih =>
    obtain ⟨k0, v0⟩ := kv
    by_cases hk : k0 = k
    · subst hk
      simp [setKey, getKey]
    · simp [setKey, getKey, hk, ih]

/-- Updating one key leaves every other key's value unchanged. -/
theorem getKey_setKey_other (flds : List (String × Value)) (k : String) (b : Value)
    (k2 : String) (hne : k2 ≠ k) : getKey (setKey flds k b) k2 = getKey flds k2 := by
  induction flds with
  | nil => simp [setKey, getKey, Ne.symm hne]
  | cons kv rest ih =>
    obtain ⟨k0, v0⟩ := kv
    by_cases hk : k0 = k
    · subst hk
      simp [setKey, getKey, Ne.symm hne]
    · by_cases h2 : k0 = k2
      · subst h2
        simp [setKey, getKey, hk]
      · simp [setKey, getKey, hk, h2, ih]

/-- Writing the same key twice keeps only the later value. -/
theorem setKey_setKey (flds : List (String × Value)) (k : String) (b1 b2 : Value) :
    setKey (setKey flds k b1) k b2 = setKey flds k b2 := by
  induction flds with
  | nil => simp [setKey]
  | cons kv rest ih =>
    obtain ⟨k0, v0⟩ := kv
    by_cases hk : k0 = k
    · subst hk
      simp [setKey]
    · simp [setKey, hk, ih]

/-- Claim C5: on success `assign` produces a new object that merges key
`k` into a copy of the prior scope (the scope value itself is a pure
term here, so it is untouched by construction, matching the shallow
copy): the new key reads back as the assigned value, every other key
reads as before, a decoder-valued `other` is used directly, a
function-valued `other` receives the accumulated scope, and writing the
same key twice keeps only the later value. -/
theorem assign_spec (d : Decoder Value) (k : String) (v : Value)
    (flds : List (String × Value)) (hd : d.decodeAny v = .ok (.obj flds)) :
    (∀ (other : Decoder Value) (b : Value), other.decodeAny v = .ok b →
      (d.assign k (.inl other)).decodeAny v = .ok (.obj (setKey flds k b))) ∧
    (∀ (f : Value → Decoder Value) (b : Value), (f (.obj flds)).decodeAny v = .ok b →
      (d.assign k (.inr f)).decodeAny v = .ok (.obj (setKey flds k b))) ∧
    (∀ b, getKey (setKey flds k b) k = some b) ∧
    (∀ b k2, k2 ≠ k → getKey (setKey flds k b) k2 = getKey flds k2) ∧
    (∀ b1 b2, setKey (setKey flds k b1) k b2 = setKey flds k b2) := by
  simp only [Decoder.decodeAny] at hd
  refine ⟨fun other b hb => ?_, fun f b hb => ?_, fun b => ?_, fun b k2 hne => ?_,
    fun b1 b2 => ?_⟩
  · show ((d v).andThen fun a => (Decoder.map _ _) v) = _
    rw [hd]
    simp only [Decoder.decodeAny] at hb
    show (other v).map _ = _
    rw [hb]
    rfl
  · show ((d v).andThen fun a => (Decoder.map _ _) v) = _
    rw [hd]
    simp only [Decoder.decodeAny] at hb
    show ((f (.obj flds)) v).map _ = _
    rw [hb]
    rfl
  · exact getKey_setKey_self flds k b
  · exact getKey_setKey_other flds k b k2 hne
  · exact setKey_setKey flds k b1 b2

/-- Witness for C5: the spec's chained example, built from `assign_spec`
twice: the scope grows from the empty object to `\x7bx: 1, y: 2\x7d`. -/
theorem assign_spec_witness :
    (((succeed (Value.obj [])).assign "x" (.inl ((field "foo" number).map Value.num))).assign
        "y" (.inl ((field "bar" number).map Value.num))).decodeAny
      (.obj [("foo", .num 1), ("bar", .num 2)]) = .ok (.obj [("x", .num 1), ("y", .num 2)]) := by
  have h1 := (assign_spec (succeed (Value.obj [])) "x"
    (.obj [("foo", .num 1), ("bar", .num 2)]) [] rfl).1
    ((field "foo" number).map Value.num) (.num 1) rfl
  have h2 := (assign_spec
    ((succeed (Value.obj [])).assign "x" (.inl ((field "foo" number).map Value.num))) "y"
    (.obj [("foo", .num 1), ("bar", .num 2)]) [("x", .num 1)] h1).1
    ((field "bar" number).map Value.num) (.num 2) rfl
  exact h2

/-- Claim C4: when the discriminator field decodes as a string that is a
key of the mapping, `discriminatedUnion` runs exactly the mapped variant
decoder, against the full original input value, and the outcome does not
depend on any other entry of the mapping (so no other variant decoder is
consulted): any mapping agreeing on that key yields the same result. -/
theorem discriminatedUnion_spec {A : Type} (f0 : String)
    (mapping : List (String × Decoder A)) (v : Value) (tag : String) (d : Decoder A)
    (htag : (field f0 string).decodeAny v = .ok tag)
    (hsel : lookupDecoder mapping tag = some d) :
    ((discriminatedUnion f0 mapping).decodeAny v =
      (d.decodeAny v).mapError fun e =>
        "Error decoding variant with " ++ f0 ++ "=\x27" ++ tag ++ "\x27: " ++ e) ∧
    (∀ mapping2 : List (String × Decoder A), lookupDecoder mapping2 tag = some d →
      (discriminatedUnion f0 mapping2).decodeAny v =
        (discriminatedUnion f0 mapping).decodeAny v) := by
  have main : ∀ (m : List (String × Decoder A)), lookupDecoder m tag = some d →
      (discriminatedUnion f0 m).decodeAny v =
        (d.decodeAny v).mapError fun e =>
          "Error decoding variant with " ++ f0 ++ "=\x27" ++ tag ++ "\x27: " ++ e := by
    intro m hm
    show (match (field f0 string).decodeAny v with
          | .err _ => _
          | .ok discriminatorValue => _) = _
    rw [htag]
    simp only [hm]
  exact ⟨main mapping hsel, fun m2 h2 => (main m2 h2).trans (main mapping hsel).symm⟩

/-- Witness for C4: dispatching on `type = \x27user\x27` via
`discriminatedUnion_spec` runs the user variant on the whole object and
yields its result. -/
theorem discriminatedUnion_spec_witness :
    (discriminatedUnion "type"
        [("user", (field "name" string).map Value.str), ("admin", fail "nope")]).decodeAny
      (.obj [("type", .str "user"), ("name", .str "Alice")]) = .ok (.str "Alice") :=
  ((discriminatedUnion_spec "type"
      [("user", (field "name" string).map Value.str), ("admin", fail "nope")]
      (.obj [("type", .str "user"), ("name", .str "Alice")]) "user"
      ((field "name" string).map Value.str) rfl rfl).1).trans rfl

/-- Claim C1 (code bug): the spec's failure semantics say no operator
ever throws for a decoding mismatch, and in particular that `at` returns
an `Err` whenever the path cannot be resolved, including through a
`null` intermediate value; but the walk in `src/containers.ts` checks
only `val === undefined` after each read (the nullish guard covers only
the root), so reading the next segment off an intermediate `null` throws
a `TypeError` instead of returning an `Err`: here
`at([\x27a\x27, \x27b\x27], string).decodeAny(\x7ba: null\x7d)`. -/
theorem at_throws_on_null_intermediate :
    atRun [.str "a", .str "b"] string (.obj [("a", .null)]) =
      .throws "TypeError: Cannot read properties of null (reading \x27b\x27)" := rfl

/-- Claim C10: the replacer's seen set is never pruned within a
stringify call, so a repeated reference to the same object — here one
empty object reachable from both keys of a non-cyclic root — makes the
later occurrence render as the sentinel even though no true cycle
exists. -/
theorem safeStringify_shared_reference_sentinel :
    safeStringifyH [(0, .objO [("a", .ref 1), ("b", .ref 1)]), (1, .objO [])] (.ref 0) =
      some "\x7b\"a\":\x7b\x7d,\"b\":\"[Cyclical Reference]\"\x7d" := rfl

/-- `find?` skips a prefix of errors. -/
theorem find_skip_errs {A : Type} (pre rest : List (Result String A))
    (hpre : ∀ r ∈ pre, r.isErr = true) :
    (pre ++ rest).find? Result.isOk = rest.find? Result.isOk := by
  induction pre with
  | nil => rfl
  | cons r t ih =>
    have hr : Result.isOk r = false := by
      have := hpre r (by simp)
      cases r <;> simp_all [Result.isOk, Result.isErr]
    rw [List.cons_append, List.find?, hr]
    exact ih fun x hx => hpre x (by simp [hx])

/-- A list whose members are all errors has no `ok` and filters to
itself under `isErr`. -/
theorem all_err_facts {A : Type} (rs : List (Result String A))
    (h : ∀ r ∈ rs, r.isErr = true) :
    (rs.any fun r => r.isOk) = false ∧ (rs.filter fun r => r.isErr) = rs := by
  constructor
  · rw [List.any_eq_false]
    intro r hr
    have := h r hr
    cases r <;> simp_all [Result.isOk, Result.isErr]
  · exact List.filter_eq_self.mpr h

/-- Claim C2: `oneOf` of the empty list fails with the fixed message;
when the decoders split as a failing prefix, a first success, and an
arbitrary remainder, it returns exactly that first success in list
order; and when every branch fails it reports every branch message,
newline-joined in order after the fixed heading.  The result is computed
from the list of all branch runs (`decoders.map(d => d.decodeAny(value))`),
so every decoder is evaluated. -/
theorem oneOf_spec {A : Type} (ds : List (Decoder A)) (v : Value) :
    (ds = [] → (oneOf ds).decodeAny v = .err "No decoders specified.") ∧
    (∀ (pre : List (Decoder A)) (dOk : Decoder A) (suf : List (Decoder A)) (a : A),
      ds = pre ++ dOk :: suf →
      (∀ d ∈ pre, (d.decodeAny v).isErr = true) →
      dOk.decodeAny v = .ok a →
      (oneOf ds).decodeAny v = .ok a) ∧
    ((∀ d ∈ ds, (d.decodeAny v).isErr = true) → ds ≠ [] →
      (oneOf ds).decodeAny v =
        .err ("I found the following problems:\n" ++
          String.intercalate "\n" (ds.map fun d => (d.decodeAny v).errMsg))) := by
  refine ⟨fun h => by subst h; rfl, fun pre dOk suf a hds hpre hok => ?_, fun hall hne => ?_⟩
  · subst hds
    have hlen : ¬(pre ++ dOk :: suf).length = 0 := by simp
    have hsplit : (pre ++ dOk :: suf).map (fun d => d.decodeAny v) =
        pre.map (fun d => d.decodeAny v) ++
          (Result.ok a :: suf.map fun d => d.decodeAny v) := by
      rw [List.map_append, List.map_cons, hok]
    have hfind : ((pre ++ dOk :: suf).map fun d => d.decodeAny v).find? Result.isOk =
        some (.ok a) := by
      rw [hsplit, find_skip_errs]
      · rw [List.find?]
        rfl
      · intro r hr
        rw [List.mem_map] at hr
        obtain ⟨d0, hd0, rfl⟩ := hr
        exact hpre d0 hd0
    have hany : (((pre ++ dOk :: suf).map fun d => d.decodeAny v).any
        fun r => r.isOk) = true := by
      rw [List.any_eq_true]
      refine ⟨.ok a, ?_, rfl⟩
      rw [hsplit]
      simp
    show (if (pre ++ dOk :: suf).length = 0 then _ else _) = _
    rw [if_neg hlen]
    simp only [hany, if_true, hfind]
  · have hall2 : ∀ r ∈ ds.map fun d => d.decodeAny v, r.isErr = true := by
      intro r hr
      rw [List.mem_map] at hr
      obtain ⟨d0, hd0, rfl⟩ := hr
      exact hall d0 hd0
    obtain ⟨hany, hfilter⟩ := all_err_facts _ hall2
    have hlen : ¬ds.length = 0 := by
      intro h0
      exact hne (List.length_eq_zero.mp h0)
    have hmsgs : ((ds.map fun d => d.decodeAny v).map
        fun r => r.cata (fun e => e) fun _ => "") =
          ds.map fun d => (d.decodeAny v).errMsg := by
      rw [List.map_map]
      refine List.map_congr_left fun d _ => ?_
      simp only [Function.comp]
      cases d.decodeAny v <;> rfl
    show (if ds.length = 0 then _ else _) = _
    rw [if_neg hlen]
    simp only [hany, Bool.false_eq_true, if_false, hfilter, hmsgs]

/-- Witness for C2: the empty list, a first success after a failing
prefix, and the spec's `oneOf([string, number])` on `true` reporting
both branch messages, all by applying `oneOf_spec`. -/
theorem oneOf_spec_witness :
    (oneOf ([] : List (Decoder Value))).decodeAny .null = .err "No decoders specified." ∧
    (oneOf [string.map Value.str, number.map Value.num]).decodeAny (.num 7) = .ok (.num 7) ∧
    (oneOf [string.map Value.str, number.map Value.num]).decodeAny (.bool true) =
      .err ("I found the following problems:\n" ++
        "I expected to find a string but instead I found true\n" ++
        "I expected to find a number but instead I found true") := by
  refine ⟨(oneOf_spec [] .null).1 rfl, ?_, ?_⟩
  · refine (oneOf_spec [string.map Value.str, number.map Value.num] (.num 7)).2.1
      [string.map Value.str] (number.map Value.num) [] (.num 7) rfl ?_ rfl
    intro d hd
    rw [List.mem_singleton] at hd
    subst hd
    rfl
  · refine ((oneOf_spec [string.map Value.str, number.map Value.num] (.bool true)).2.2
      ?_ (by simp)).trans rfl
    intro d hd
    rcases List.mem_cons.mp hd with rfl | hd2
    · rfl
    · rw [List.mem_singleton] at hd2
      subst hd2
      rfl

/-- When every element decodes, the `array` loop appends each decoded
value onto the accumulator in order. -/
theorem arrayLoop_all_ok {A : Type} (d : Decoder A) {xs : List Value} {as : List A}
    (h : List.Forall₂ (fun x a => d.decodeAny x = .ok a) xs as) :
    ∀ (idx : Nat) (acc : List A), arrayLoop d xs idx (.ok acc) = .ok (acc ++ as) := by
  induction h with
  | nil =>
    intro idx acc
    simp [arrayLoop]
  | @cons x a xs2 as2 hxa htail ih =>
    intro idx acc
    have hx : d x = .ok a := hxa
    simp only [arrayLoop, Decoder.decodeAny, hx, Result.andThen, Result.map,
      Result.mapError, Result.isErr, Bool.false_eq_true, if_false]
    rw [ih (idx + 1) (acc ++ [a]), List.append_assoc]
    rfl

/-- A failing head element stops the `array` loop at once with the
indexed message. -/
theorem arrayLoop_first_err {A : Type} (d : Decoder A) (bad : Value) (e : String)
    (hbad : d.decodeAny bad = .err e) (suf : List Value) (idx : Nat) (acc : List A) :
    arrayLoop d (bad :: suf) idx (.ok acc) =
      .err (e ++ ":\nerror found in an array at [" ++ toString idx ++ "]") := by
  have hb : d bad = .err e := hbad
  simp [arrayLoop, Decoder.decodeAny, hb, Result.andThen, Result.mapError, Result.isErr]

/-- After a fully-decoding prefix, the first failing element stops the
`array` loop with that element's index; everything after it is
irrelevant to the result. -/
theorem arrayLoop_prefix_err {A : Type} (d : Decoder A) {pre : List Value} {as : List A}
    (hpre : List.Forall₂ (fun x a => d.decodeAny x = .ok a) pre as)
    (bad : Value) (e : String) (hbad : d.decodeAny bad = .err e) (suf : List Value) :
    ∀ (idx : Nat) (acc : List A),
      arrayLoop d (pre ++ bad :: suf) idx (.ok acc) =
        .err (e ++ ":\nerror found in an array at [" ++ toString (idx + pre.length) ++ "]") := by
  induction hpre with
  | nil =>
    intro idx acc
    simpa using arrayLoop_first_err d bad e hbad suf idx acc
  | @cons x a pre2 as2 hxa htail ih =>
    intro idx acc
    have hx : d x = .ok a := hxa
    simp only [List.cons_append, arrayLoop, Decoder.decodeAny, hx, Result.andThen,
      Result.map, Result.mapError, Result.isErr, Bool.false_eq_true, if_false]
    rw [List.append_eq, ih (idx + 1) (acc ++ [a])]
    have harith : idx + 1 + pre2.length = idx + (x :: pre2).length := by
      simp [List.length_cons]
      omega
    rw [harith]

/-- Claim C6: `array` decodes the empty array to `Ok([])`, decodes
element by element in order when all succeed, and stops at the first
failing element, whose error gets the `[index]` suffix; the elements
after the failure do not influence the result (they are universally
quantified on the left and absent on the right). -/
theorem array_spec {A : Type} (d : Decoder A) :
    ((array d).decodeAny (.arr []) = .ok []) ∧
    (∀ (xs : List Value) (as : List A),
      List.Forall₂ (fun x a => d.decodeAny x = .ok a) xs as →
      (array d).decodeAny (.arr xs) = .ok as) ∧
    (∀ (pre : List Value) (as : List A) (bad : Value) (e : String) (suf : List Value),
      List.Forall₂ (fun x a => d.decodeAny x = .ok a) pre as →
      d.decodeAny bad = .err e →
      (array d).decodeAny (.arr (pre ++ bad :: suf)) =
        .err (e ++ ":\nerror found in an array at [" ++ toString pre.length ++ "]")) := by
  refine ⟨rfl, fun xs as h => ?_, fun pre as bad e suf hpre hbad => ?_⟩
  · show arrayLoop d xs 0 (.ok []) = _
    rw [arrayLoop_all_ok d h 0 []]
    rfl
  · show arrayLoop d (pre ++ bad :: suf) 0 (.ok []) = _
    rw [arrayLoop_prefix_err d hpre bad e hbad suf 0 []]
    rw [Nat.zero_add]

/-- Witness for C6: the spec's `array(string)` on `[\x27a\x27, 2, \x27c\x27]`,
via `array_spec`: the message points at index 1 and the trailing element
plays no part. -/
theorem array_spec_witness :
    (array string).decodeAny (.arr [.str "a", .num 2, .str "c"]) =
      .err "I expected to find a string but instead I found 2:\nerror found in an array at [1]" :=
  ((array_spec string).2.2 [.str "a"] ["a"] (.num 2)
    "I expected to find a string but instead I found 2" [.str "c"]
    (List.Forall₂.cons rfl List.Forall₂.nil) rfl).trans rfl

/-- The digit character of `d < 10` has character code `48 + d`. -/
theorem digitChar_toNat (d : Nat) (h : d < 10) : (digitChar d).toNat = 48 + d := by
  interval_cases d <;> rfl

/-- The digit character of `d < 10` is a digit. -/
theorem digitChar_isDigit (d : Nat) (h : d < 10) : isDigitCh (digitChar d) = true := by
  interval_cases d <;> rfl

/-- Any sufficient fuel computes the same digits. -/
theorem natDigsGo_eq_natDigs : ∀ (n fuel : Nat), n < fuel → natDigsGo fuel n = natDigs n := by
  intro n
  induction n using Nat.strong_induction_on with
  | _ n ih =>
    intro fuel hf
    match fuel, hf with
    | fuel + 1, hf =>
      by_cases h10 : n < 10
      · simp [natDigsGo, natDigs, h10]
      · have hdiv : n / 10 < n := Nat.div_lt_self (by omega) (by omega)
        have h1 : natDigsGo (fuel + 1) n = natDigsGo fuel (n / 10) ++ [digitChar (n % 10)] := by
          simp [natDigsGo, h10]
        have h2 : natDigs n = natDigsGo n (n / 10) ++ [digitChar (n % 10)] := by
          simp [natDigs, natDigsGo, h10]
        rw [h1, h2, ih (n / 10) hdiv fuel (by omega), ih (n / 10) hdiv n (by omega)]

/-- The characteristic unfolding of `natDigs`. -/
theorem natDigs_eq (n : Nat) :
    natDigs n = if n < 10 then [digitChar n] else natDigs (n / 10) ++ [digitChar (n % 10)] := by
  by_cases h10 : n < 10
  · simp [natDigs, natDigsGo, h10]
  · have hdiv : n / 10 < n := Nat.div_lt_self (by omega) (by omega)
    rw [if_neg h10]
    have h2 : natDigs n = natDigsGo n (n / 10) ++ [digitChar (n % 10)] := by
      simp [natDigs, natDigsGo, h10]
    rw [h2, natDigsGo_eq_natDigs (n / 10) n hdiv]

/-- A digit rendering is never empty. -/
theorem natDigs_ne_nil (n : Nat) : natDigs n ≠ [] := by
  rw [natDigs_eq]
  split <;> simp

/-- Every character of a digit rendering is a digit. -/
theorem natDigs_all_digits (n : Nat) : ∀ c ∈ natDigs n, isDigitCh c = true := by
  induction n using Nat.strong_induction_on with
  | _ n ih =>
    rw [natDigs_eq]
    by_cases h10 : n < 10
    · rw [if_pos h10]
      intro c hc
      rw [List.mem_singleton] at hc
      subst hc
      exact digitChar_isDigit n h10
    · rw [if_neg h10]
      intro c hc
      rcases List.mem_append.mp hc with h | h
      · exact ih (n / 10) (Nat.div_lt_self (by omega) (by omega)) c h
      · rw [List.mem_singleton] at h
        subst h
        exact digitChar_isDigit _ (Nat.mod_lt _ (by omega))

/-- Reading a digit rendering back gives the number. -/
theorem digitsVal_natDigs (n : Nat) : digitsVal (natDigs n) = n := by
  induction n using Nat.strong_induction_on with
  | _ n ih =>
    rw [natDigs_eq]
    by_cases h10 : n < 10
    · rw [if_pos h10]
      simp [digitsVal, digitChar_toNat n h10]
    · rw [if_neg h10]
      have hv := ih (n / 10) (Nat.div_lt_self (by omega) (by omega))
      simp only [digitsVal, List.foldl_append, List.foldl_cons, List.foldl_nil] at hv ⊢
      rw [hv, digitChar_toNat _ (Nat.mod_lt _ (by omega))]
      omega

/-- A digit rendering starts with a digit character. -/
theorem natDigs_head (n : Nat) : ∃ c t, natDigs n = c :: t ∧ isDigitCh c = true := by
  match h : natDigs n with
  | [] => exact absurd h (natDigs_ne_nil n)
  | c :: t => exact ⟨c, t, rfl, natDigs_all_digits n c (by rw [h]; simp)⟩

/-- `grabDigits` takes nothing off input that does not start with a
digit. -/
theorem grabDigits_stop {cs : List Char} (h : headNotDigit cs = true) :
    grabDigits cs = ([], cs) := by
  match cs with
  | [] => rfl
  | c :: t =>
    simp only [headNotDigit, Bool.not_eq_true'] at h
    simp [grabDigits, h]

/-- `grabDigits` consumes exactly a leading digit run. -/
theorem grabDigits_run (ds : List Char) (hds : ∀ c ∈ ds, isDigitCh c = true)
    (rest : List Char) (hr : headNotDigit rest = true) :
    grabDigits (ds ++ rest) = (ds, rest) := by
  induction ds with
  | nil => simpa using grabDigits_stop hr
  | cons c t ih =>
    have hc := hds c (by simp)
    have ht := ih fun x hx => hds x (by simp [hx])
    simp [grabDigits, hc, ht]

/-- The integer codec round-trip: parsing a rendered integer recovers it
whenever what follows cannot extend the digit run. -/
theorem parseIntVal_render (i : Int) (rest : List Char) (hr : headNotDigit rest = true) :
    parseIntVal (intChars i ++ rest) = .ok (.num i, rest) := by
  by_cases hneg : i < 0
  · have harg : intChars i ++ rest = '-' :: (natDigs i.natAbs ++ rest) := by
      simp [intChars, hneg]
    rw [harg]
    simp only [parseIntVal, if_pos rfl]
    rw [grabDigits_run _ (natDigs_all_digits _) _ hr]
    obtain ⟨c, t, hct, _⟩ := natDigs_head i.natAbs
    rw [hct]
    simp only [List.isEmpty_cons, Bool.false_eq_true, if_false]
    have : digitsVal (c :: t) = i.natAbs := by
      rw [← hct]
      exact digitsVal_natDigs _
    rw [this]
    have : -(i.natAbs : Int) = i := by omega
    rw [this]
    simp
  · obtain ⟨c0, t0, h0, hc0⟩ := natDigs_head i.natAbs
    have harg : intChars i ++ rest = c0 :: (t0 ++ rest) := by
      simp [intChars, hneg, h0]
    rw [harg]
    have hcm : ¬c0 = '-' := by
      intro h
      rw [h] at hc0
      exact absurd hc0 (by decide)
    simp only [parseIntVal, if_neg hcm]
    have hgrab : grabDigits (c0 :: (t0 ++ rest)) = (c0 :: t0, rest) := by
      have := grabDigits_run (c0 :: t0) (by rw [← h0]; exact natDigs_all_digits _) rest hr
      rwa [List.cons_append] at this
    rw [hgrab]
    simp only [List.isEmpty_cons, Bool.false_eq_true, if_false]
    have hval : digitsVal (c0 :: t0) = i.natAbs := by
      rw [← h0]
      exact digitsVal_natDigs _
    rw [hval]
    have : (i.natAbs : Int) = i := by omega
    rw [this]

/-- Reading back a rendered hex digit. -/
theorem readHex_hexDigitChar (d : Nat) (h : d < 16) : readHex (hexDigitChar d) = some d := by
  interval_cases d <;> rfl

/-- Parsing one escaped character undoes `escapeChar`. -/
theorem parseStrBody_escape (c : Char) (acc t : List Char) :
    parseStrBody acc (escapeChar c ++ t) = parseStrBody (c :: acc) t := by
  by_cases h1 : c = '"'
  · subst h1; rfl
  by_cases h2 : c = '\\'
  · subst h2; rfl
  by_cases h3 : c = Char.ofNat 8
  · subst h3; rfl
  by_cases h4 : c = Char.ofNat 9
  · subst h4; rfl
  by_cases h5 : c = Char.ofNat 10
  · subst h5; rfl
  by_cases h6 : c = Char.ofNat 12
  · subst h6; rfl
  by_cases h7 : c = Char.ofNat 13
  · subst h7; rfl
  by_cases h8 : c.toNat < 32
  · have e1 : escapeChar c =
        ['\\', 'u', '0', '0', hexDigitChar (c.toNat / 16), hexDigitChar (c.toNat % 16)] := by
      simp [escapeChar, h1, h2, h3, h4, h5, h6, h7, h8]
    rw [e1]
    show (match readHex '0', readHex '0', readHex (hexDigitChar (c.toNat / 16)),
            readHex (hexDigitChar (c.toNat % 16)) with
          | some a, some b, some c2, some d =>
            parseStrBody (Char.ofNat (((a * 16 + b) * 16 + c2) * 16 + d) :: acc) t
          | _, _, _, _ => .err "Bad Unicode escape in JSON") = _
    rw [readHex_hexDigitChar _ (by omega), readHex_hexDigitChar _ (by omega)]
    show parseStrBody
        (Char.ofNat (((0 * 16 + 0) * 16 + c.toNat / 16) * 16 + c.toNat % 16) :: acc) t = _
    have harith : ((0 * 16 + 0) * 16 + c.toNat / 16) * 16 + c.toNat % 16 = c.toNat := by
      omega
    rw [harith, Char.ofNat_toNat]
  · have e1 : escapeChar c = [c] := by
      simp [escapeChar, h1, h2, h3, h4, h5, h6, h7, h8]
    rw [e1]
    rw [parseStrBody.eq_def]
    simp [h1, h2]

/-- Parsing an escaped run stops exactly at the closing quote. -/
theorem parseStrBody_all (cs : List Char) : ∀ (acc rest : List Char),
    parseStrBody acc (escapeAll cs ++ '"' :: rest) =
      .ok (String.mk (acc.reverse ++ cs), rest) := by
  induction cs with
  | nil =>
    intro acc rest
    simp [escapeAll, parseStrBody]
  | cons c t ih =>
    intro acc rest
    rw [escapeAll, List.append_assoc, parseStrBody_escape, ih]
    simp

/-- The string codec round-trip: a quoted, escaped body parses back to
the original string. -/
theorem parseStr_render (s : String) (rest : List Char) :
    parseStrBody [] (escapeAll s.data ++ '"' :: rest) = .ok (s, rest) := by
  rw [parseStrBody_all]
  cases s with
  | mk data => simp

/-- Every rendered value is nonempty, and its head closes no array. -/
theorem renderL_head (v : Value) (cs : List Char) (h : renderL v = some cs) :
    ∃ c t, cs = c :: t ∧ c ≠ ']' := by
  cases v with
  | null =>
    simp only [renderL, Option.some.injEq] at h
    subst h
    exact ⟨_, _, rfl, by decide⟩
  | undefined => simp [renderL] at h
  | bool b =>
    cases b <;> simp only [renderL, Option.some.injEq] at h <;> subst h
    · exact ⟨_, _, rfl, by decide⟩
    · exact ⟨_, _, rfl, by decide⟩
  | num n =>
    simp only [renderL, Option.some.injEq] at h
    subst h
    by_cases hneg : n < 0
    · exact ⟨'-', natDigs n.natAbs, by simp [intChars, hneg], by decide⟩
    · obtain ⟨c0, t0, h0, hc0⟩ := natDigs_head n.natAbs
      refine ⟨c0, t0, by simp [intChars, hneg, h0], ?_⟩
      intro heq
      rw [heq] at hc0
      exact absurd hc0 (by decide)
  | str s =>
    simp only [renderL, Option.some.injEq] at h
    subst h
    exact ⟨_, _, rfl, by decide⟩
  | arr es =>
    simp only [renderL, Option.some.injEq] at h
    subst h
    exact ⟨_, _, rfl, by decide⟩
  | obj fs =>
    simp only [renderL, Option.some.injEq] at h
    subst h
    exact ⟨_, _, rfl, by decide⟩

/-- A representable value renders. -/
theorem renderL_some (v : Value) (h : Representable v = true) :
    ∃ cs, renderL v = some cs := by
  cases v with
  | null => exact ⟨_, rfl⟩
  | undefined => simp [Representable] at h
  | bool b => cases b <;> exact ⟨_, rfl⟩
  | num n => exact ⟨_, rfl⟩
  | str s => exact ⟨_, rfl⟩
  | arr es => exact ⟨_, rfl⟩
  | obj fs => exact ⟨_, rfl⟩

/-- The comma-join of a nonempty piece list starts with its first piece. -/
theorem joinComma_cons (p : List Char) (ps : List (List Char)) :
    joinComma (p :: ps) = p ++ (match ps with
      | [] => []
      | _ :: _ => ',' :: joinComma ps) := by
  cases ps with
  | nil => simp [joinComma]
  | cons q qs => rfl

/-- A head character that can only start a number sends `parseVal` to
the integer parser. -/
theorem parseVal_num_head (fuel : Nat) (c0 : Char) (t : List Char)
    (hd : isDigitCh c0 = true ∨ c0 = '-') :
    parseVal (fuel + 1) (c0 :: t) = parseIntVal (c0 :: t) := by
  rcases hd with h | h
  · have hn : ¬c0 = 'n' := fun heq => by rw [heq] at h; exact absurd h (by decide)
    have ht : ¬c0 = 't' := fun heq => by rw [heq] at h; exact absurd h (by decide)
    have hf : ¬c0 = 'f' := fun heq => by rw [heq] at h; exact absurd h (by decide)
    have hq : ¬c0 = '"' := fun heq => by rw [heq] at h; exact absurd h (by decide)
    have hb : ¬c0 = '[' := fun heq => by rw [heq] at h; exact absurd h (by decide)
    have hl : ¬c0 = lbrace := fun heq => by rw [heq] at h; exact absurd h (by decide)
    simp [parseVal, hn, ht, hf, hq, hb, hl, h]
  · subst h
    simp [parseVal, lbrace]

/-- With a nonempty element list whose first character does not close
the array, `parseVal` hands an array body to `parseItems`. -/
theorem parseVal_arr_branch (fuel : Nat) (c2 : Char) (r2 : List Char) (hne : c2 ≠ ']') :
    parseVal (fuel + 1) ('[' :: c2 :: r2) =
      (match parseItems fuel (c2 :: r2) with
       | .err e => .err e
       | .ok (es, r3) => .ok (.arr es, r3)) := by
  simp [parseVal, hne]

/-- With a nonempty member list (whose first character is a key's
quote), `parseVal` hands an object body to `parseMembers`. -/
theorem parseVal_obj_branch (fuel : Nat) (c2 : Char) (r2 : List Char) (hne : c2 ≠ rbrace) :
    parseVal (fuel + 1) (lbrace :: c2 :: r2) =
      (match parseMembers fuel (c2 :: r2) with
       | .err e => .err e
       | .ok (ms, r3) => .ok (.obj ms, r3)) := by
  have h1 : ¬lbrace = 'n' := by decide
  have h2 : ¬lbrace = 't' := by decide
  have h3 : ¬lbrace = 'f' := by decide
  have h4 : ¬lbrace = '"' := by decide
  have h5 : ¬lbrace = '[' := by decide
  simp [parseVal, h1, h2, h3, h4, h5, hne]

mutual
/-- Round-trip of a rendered value: parsing `renderL v` (with any
non-digit-headed remainder) recovers `v` exactly, for representable `v`
and ample fuel. -/
theorem rtV : ∀ (v : Value) (fuel : Nat) (cs rest : List Char),
    Representable v = true → renderL v = some cs → cs.length < fuel →
    headNotDigit rest = true → parseVal fuel (cs ++ rest) = .ok (v, rest)
  | .null, fuel, cs, rest, _, hren, hf, _ => by
    simp only [renderL, Option.some.injEq] at hren
    subst hren
    cases fuel with
    | zero => exact absurd hf (by omega)
    | succ f => simp [parseVal, dropLit]
  | .undefined, _, _, _, hrep, _, _, _ => by simp [Representable] at hrep
  | .bool b, fuel, cs, rest, _, hren, hf, _ => by
    cases fuel with
    | zero => exact absurd hf (by omega)
    | succ f =>
      cases b <;> simp only [renderL, Option.some.injEq] at hren <;> subst hren <;>
        simp [parseVal, dropLit]
  | .num n, fuel, cs, rest, _, hren, hf, hnd => by
    simp only [renderL, Option.some.injEq] at hren
    subst hren
    cases fuel with
    | zero => exact absurd hf (by omega)
    | succ f =>
      by_cases hneg : n < 0
      · have harg : intChars n ++ rest = '-' :: (natDigs n.natAbs ++ rest) := by
          simp [intChars, hneg]
        rw [harg, parseVal_num_head f '-' _ (Or.inr rfl), ← harg]
        exact parseIntVal_render n rest hnd
      · obtain ⟨c0, t0, h0, hc0⟩ := natDigs_head n.natAbs
        have harg : intChars n ++ rest = c0 :: (t0 ++ rest) := by
          simp [intChars, hneg, h0]
        rw [harg, parseVal_num_head f c0 _ (Or.inl hc0), ← harg]
        exact parseIntVal_render n rest hnd
  | .str s, fuel, cs, rest, _, hren, hf, _ => by
    simp only [renderL, Option.some.injEq] at hren
    subst hren
    cases fuel with
    | zero => exact absurd hf (by omega)
    | succ f =>
      have harg : quoteChars s ++ rest = '"' :: (escapeAll s.data ++ '"' :: rest) := by
        simp [quoteChars]
      rw [harg]
      simp [parseVal, parseStr_render]
  | .arr [], fuel, cs, rest, _, hren, hf, _ => by
    simp only [renderL, renderElems, joinComma, List.nil_append, Option.some.injEq] at hren
    subst hren
    cases fuel with
    | zero => exact absurd hf (by omega)
    | succ f => simp [parseVal]
  | .arr (e :: es), fuel, cs, rest, hrep, hren, hf, _ => by
    simp only [renderL, Option.some.injEq] at hren
    subst hren
    have hre : Representable e = true ∧ repElems es = true := by
      have h1 : Representable (.arr (e :: es)) = (Representable e && repElems es) := rfl
      rw [h1, Bool.and_eq_true] at hrep
      exact hrep
    cases fuel with
    | zero => exact absurd hf (by omega)
    | succ f =>
      obtain ⟨ce, hce⟩ := renderL_some e hre.1
      obtain ⟨c2, t2, hct, hc2⟩ := renderL_head e ce hce
      have hElems : renderElems (e :: es) = ce :: renderElems es := by
        simp [renderElems, hce]
      obtain ⟨tail, htail⟩ :
          ∃ tail, joinComma (renderElems (e :: es)) = ce ++ tail := by
        rw [hElems, joinComma_cons]
        exact ⟨_, rfl⟩
      have harg : ('[' :: (joinComma (renderElems (e :: es)) ++ [']'])) ++ rest
          = '[' :: c2 :: (t2 ++ tail ++ ']' :: rest) := by
        rw [htail, hct]
        simp [List.append_assoc]
      rw [harg, parseVal_arr_branch f c2 _ hc2]
      have hback : c2 :: (t2 ++ tail ++ ']' :: rest)
          = joinComma (renderElems (e :: es)) ++ ']' :: rest := by
        rw [htail, hct]
        simp [List.append_assoc]
      rw [hback]
      have hfl : (joinComma (renderElems (e :: es))).length + 1 < f := by
        simp only [List.length_cons, List.length_append] at hf
        omega
      have hrepc : repElems (e :: es) = true := by
        have h1 : repElems (e :: es) = (Representable e && repElems es) := rfl
        rw [h1, Bool.and_eq_true]
        exact hre
      rw [rtItems (e :: es) f rest (by simp) hrepc hfl]
  | .obj [], fuel, cs, rest, _, hren, hf, _ => by
    simp only [renderL, renderFields, joinComma, List.nil_append, Option.some.injEq] at hren
    subst hren
    cases fuel with
    | zero => exact absurd hf (by omega)
    | succ f => simp [parseVal, lbrace, rbrace]
  | .obj ((k, v) :: fs), fuel, cs, rest, hrep, hren, hf, _ => by
    simp only [renderL, Option.some.injEq] at hren
    subst hren
    have hrv : Representable v = true ∧ repFields fs = true := by
      have h1 : Representable (.obj ((k, v) :: fs)) = (Representable v && repFields fs) := rfl
      rw [h1, Bool.and_eq_true] at hrep
      exact hrep
    cases fuel with
    | zero => exact absurd hf (by omega)
    | succ f =>
      obtain ⟨cv, hcv⟩ := renderL_some v hrv.1
      have hFields : renderFields ((k, v) :: fs)
          = (quoteChars k ++ ':' :: cv) :: renderFields fs := by
        simp [renderFields, hcv]
      obtain ⟨tail, htail⟩ :
          ∃ tail, joinComma (renderFields ((k, v) :: fs))
            = (quoteChars k ++ ':' :: cv) ++ tail := by
        rw [hFields, joinComma_cons]
        exact ⟨_, rfl⟩
      have hq : ¬('"' : Char) = rbrace := by decide
      have harg : (lbrace :: (joinComma (renderFields ((k, v) :: fs)) ++ [rbrace])) ++ rest
          = lbrace :: '"' :: ((escapeAll k.data ++ ['"']) ++ ':' :: cv ++ tail
              ++ rbrace :: rest) := by
        rw [htail]
        simp [quoteChars, List.append_assoc]
      rw [harg, parseVal_obj_branch f '"' _ hq]
      have hback : ('"' : Char) :: ((escapeAll k.data ++ ['"']) ++ ':' :: cv ++ tail
            ++ rbrace :: rest)
          = joinComma (renderFields ((k, v) :: fs)) ++ rbrace :: rest := by
        rw [htail]
        simp [quoteChars, List.append_assoc]
      rw [hback]
      have hfl : (joinComma (renderFields ((k, v) :: fs))).length + 1 < f := by
        simp only [List.length_cons, List.length_append] at hf
        omega
      have hrepc : repFields ((k, v) :: fs) = true := by
        have h1 : repFields ((k, v) :: fs) = (Representable v && repFields fs) := rfl
        rw [h1, Bool.and_eq_true]
        exact hrv
      rw [rtMembers ((k, v) :: fs) f rest (by simp) hrepc hfl]
termination_by v _ _ _ _ _ _ _ => sizeOf v

/-- Round-trip of a rendered, comma-joined, nonempty element list
followed by the closing bracket. -/
theorem rtItems : ∀ (es : List Value) (fuel : Nat) (rest : List Char),
    es ≠ [] → repElems es = true →
    (joinComma (renderElems es)).length + 1 < fuel →
    parseItems fuel (joinComma (renderElems es) ++ ']' :: rest) = .ok (es, rest)
  | [], _, _, hne, _, _ => absurd rfl hne
  | [e], fuel, rest, _, hrep, hfl => by
    have hre : Representable e = true := by
      have h1 : repElems [e] = (Representable e && repElems []) := rfl
      rw [h1, Bool.and_eq_true] at hrep
      exact hrep.1
    cases fuel with
    | zero => exact absurd hfl (by omega)
    | succ f =>
      obtain ⟨ce, hce⟩ := renderL_some e hre
      have hj : joinComma (renderElems [e]) = ce := by
        simp [renderElems, joinComma, hce]
      rw [hj] at hfl ⊢
      have hv := rtV e f ce (']' :: rest) hre hce (by omega) rfl
      simp only [parseItems]
      rw [hv]
      simp
  | e :: e2 :: es, fuel, rest, _, hrep, hfl => by
    have hre : Representable e = true ∧ repElems (e2 :: es) = true := by
      have h1 : repElems (e :: e2 :: es) = (Representable e && repElems (e2 :: es)) := rfl
      rw [h1, Bool.and_eq_true] at hrep
      exact hrep
    cases fuel with
    | zero => exact absurd hfl (by omega)
    | succ f =>
      obtain ⟨ce, hce⟩ := renderL_some e hre.1
      have hj : joinComma (renderElems (e :: e2 :: es))
          = ce ++ ',' :: joinComma (renderElems (e2 :: es)) := by
        have hstep : renderElems (e :: e2 :: es)
            = ce :: ((renderL e2).getD ['n', 'u', 'l', 'l'] :: renderElems es) := by
          simp [renderElems, hce]
        rw [hstep]
        rfl
      rw [hj] at hfl ⊢
      have hlen : ce.length < f ∧ (joinComma (renderElems (e2 :: es))).length + 1 < f := by
        simp only [List.length_append, List.length_cons] at hfl
        omega
      have hv := rtV e f ce (',' :: (joinComma (renderElems (e2 :: es)) ++ ']' :: rest))
        hre.1 hce hlen.1 rfl
      have harg : (ce ++ ',' :: joinComma (renderElems (e2 :: es))) ++ ']' :: rest
          = ce ++ (',' :: (joinComma (renderElems (e2 :: es)) ++ ']' :: rest)) := by
        simp [List.append_assoc]
      rw [harg]
      simp only [parseItems]
      rw [hv]
      simp [rtItems (e2 :: es) f rest (List.cons_ne_nil _ _) hre.2 hlen.2]
termination_by es _ _ _ _ _ => sizeOf es

/-- Round-trip of a rendered, comma-joined, nonempty member list
followed by the closing brace. -/
theorem rtMembers : ∀ (fs : List (String × Value)) (fuel : Nat) (rest : List Char),
    fs ≠ [] → repFields fs = true →
    (joinComma (renderFields fs)).length + 1 < fuel →
    parseMembers fuel (joinComma (renderFields fs) ++ rbrace :: rest) = .ok (fs, rest)
  | [], _, _, hne, _, _ => absurd rfl hne
  | [(k, v)], fuel, rest, _, hrep, hfl => by
    have hrv : Representable v = true := by
      have h1 : repFields [(k, v)] = (Representable v && repFields []) := rfl
      rw [h1, Bool.and_eq_true] at hrep
      exact hrep.1
    cases fuel with
    | zero => exact absurd hfl (by omega)
    | succ f =>
      obtain ⟨cv, hcv⟩ := renderL_some v hrv
      have hj : joinComma (renderFields [(k, v)]) = quoteChars k ++ ':' :: cv := by
        simp [renderFields, joinComma, hcv]
      rw [hj] at hfl ⊢
      have harg : (quoteChars k ++ ':' :: cv) ++ rbrace :: rest
          = '"' :: (escapeAll k.data ++ '"' :: (':' :: (cv ++ rbrace :: rest))) := by
        simp [quoteChars, List.append_assoc]
      rw [harg]
      have hcvlen : cv.length < f := by
        simp only [List.length_append, List.length_cons, quoteChars] at hfl
        omega
      have hv := rtV v f cv (rbrace :: rest) hrv hcv hcvlen rfl
      simp only [parseMembers]
      simp only [parseStr_render]
      rw [hv]
      simp [rbrace]
  | (k, v) :: kv2 :: fs, fuel, rest, _, hrep, hfl => by
    have hrv : Representable v = true ∧ repFields (kv2 :: fs) = true := by
      have h1 : repFields ((k, v) :: kv2 :: fs)
          = (Representable v && repFields (kv2 :: fs)) := rfl
      rw [h1, Bool.and_eq_true] at hrep
      exact hrep
    have hrv2 : Representable kv2.2 = true := by
      have h1 : repFields (kv2 :: fs) = (Representable kv2.2 && repFields fs) := by
        obtain ⟨k2, v2⟩ := kv2
        rfl
      have h2 := hrv.2
      rw [h1, Bool.and_eq_true] at h2
      exact h2.1
    cases fuel with
    | zero => exact absurd hfl (by omega)
    | succ f =>
      obtain ⟨cv, hcv⟩ := renderL_some v hrv.1
      obtain ⟨cp, hcp⟩ := renderL_some kv2.2 hrv2
      have hj : joinComma (renderFields ((k, v) :: kv2 :: fs))
          = (quoteChars k ++ ':' :: cv) ++ ',' :: joinComma (renderFields (kv2 :: fs)) := by
        have hstep2 : renderFields (kv2 :: fs)
            = (quoteChars kv2.1 ++ ':' :: cp) :: renderFields fs := by
          obtain ⟨k2, v2⟩ := kv2
          simp only at hcp
          simp [renderFields, hcp]
        have hstep : renderFields ((k, v) :: kv2 :: fs)
            = (quoteChars k ++ ':' :: cv) ::
                ((quoteChars kv2.1 ++ ':' :: cp) :: renderFields fs) := by
          rw [← hstep2]
          simp [renderFields, hcv]
        rw [hstep, hstep2]
        rfl
      rw [hj] at hfl ⊢
      have hlen : cv.length < f ∧
          (joinComma (renderFields (kv2 :: fs))).length + 1 < f := by
        simp only [List.length_append, List.length_cons, quoteChars] at hfl
        omega
      have hv := rtV v f cv
        (',' :: (joinComma (renderFields (kv2 :: fs)) ++ rbrace :: rest))
        hrv.1 hcv hlen.1 rfl
      have harg : ((quoteChars k ++ ':' :: cv) ++ ',' :: joinComma (renderFields (kv2 :: fs)))
            ++ rbrace :: rest
          = '"' :: (escapeAll k.data ++ '"' :: (':' ::
              (cv ++ (',' :: (joinComma (renderFields (kv2 :: fs)) ++ rbrace :: rest))))) := by
        simp [quoteChars, List.append_assoc]
      rw [harg]
      simp only [parseMembers]
      simp only [parseStr_render]
      rw [hv]
      simp [rtMembers (kv2 :: fs) f rest (List.cons_ne_nil _ _) hrv.2 hlen.2]
termination_by fs _ _ _ _ _ => sizeOf fs
end

/-- The codec round-trip at the top level: parsing the stringification
of a representable value recovers it exactly (on trees `safeStringify`
coincides with plain `JSON.stringify`, the replacer never firing). -/
theorem parse_render (v : Value) (hrep : Representable v = true) :
    jsonParse (safeStringify v) = .ok v := by
  obtain ⟨cs, hcs⟩ := renderL_some v hrep
  have hsafe : safeStringify v = String.mk cs := by
    simp [safeStringify, hcs]
  rw [hsafe]
  have hdata : (String.mk cs).data = cs := rfl
  have hlen : (String.mk cs).length = cs.length := rfl
  simp only [jsonParse, hdata, hlen]
  have hv := rtV v (cs.length + 1) cs [] hrep hcs (by omega) rfl
  rw [List.append_nil] at hv
  rw [hv]
  simp

/-- Claim C9: `decodeJson` turns any parse failure into an `Err`
carrying the parser's message (never an exception — the model's
`jsonParse` error side is exactly the caught `SyntaxError` message), and
on the stringification of any value made of JSON-representable parts it
agrees with `decodeAny` on that value. -/
theorem decodeJson_spec {A : Type} (d : Decoder A) :
    (∀ (s m : String), jsonParse s = .err m → d.decodeJson s = .err m) ∧
    (∀ v : Value, Representable v = true →
      d.decodeJson (safeStringify v) = d.decodeAny v) := by
  constructor
  · intro s m h
    simp only [Decoder.decodeJson, h]
  · intro v hrep
    simp only [Decoder.decodeJson, parse_render v hrep]

/-- Witness for C9: a truncated document yields the parser's message as
an `Err`, and decoding the stringification of `\x7ba: 5\x7d` equals
decoding the object directly, which is `Ok(5)`; both via
`decodeJson_spec`. -/
theorem decodeJson_spec_witness :
    (field "a" number).decodeJson "\x7b" = .err "Unexpected end of JSON input" ∧
    (field "a" number).decodeJson (safeStringify (.obj [("a", .num 5)])) =
      (field "a" number).decodeAny (.obj [("a", .num 5)]) ∧
    (field "a" number).decodeAny (.obj [("a", .num 5)]) = .ok 5 :=
  ⟨(decodeJson_spec (field "a" number)).1 "\x7b" "Unexpected end of JSON input" rfl,
   (decodeJson_spec (field "a" number)).2 (.obj [("a", .num 5)]) rfl, rfl⟩
